import Mathlib

/-!
Verification of the `f4jumble` Go package (`src/f4jumble.go`): a
length-preserving, reversible 4-round unkeyed Feistel transform built from a
personalized hash.  Bytes are modelled as `Nat` values, byte slices as
`List Nat`, and Go's `uint8` casts as `% 256`.  The underlying personalized
hash (an external library, `blake2b`) is a parameter `hash pers outLen input`;
the claims assume it is a deterministic total function returning digests of
exactly the requested length, captured by `HashGood`.
-/

namespace F4

/-- The type of the personalized hash collaborator:
`hash personalization outputLength input` returns the digest bytes.
In the Go source this is `blake2b.NewDigest(nil, nil, pers, outLen)` followed by
`Write(input)` and `Sum(nil)`; the claims assume it never fails, so it is a
total function here. -/
def Hash : Type := List Nat → Nat → List Nat → List Nat

/-- The hash returns digests of exactly the requested length (the blake2b
contract assumed by the claims). -/
def HashGood (hash : Hash) : Prop :=
  ∀ pers outLen input, (hash pers outLen input).length = outLen

/-- `minLenM = 48` from the source's constant block. -/
def minLenM : Nat := 48

/-- `maxLenM = 4194368` from the source's constant block. -/
def maxLenM : Nat := 4194368

/-- `lenH = 64` from the source's constant block: the natural blake2b output
size. -/
def lenH : Nat := 64

/-- `func ceilDiv(num int, den int) int { return (num + den - 1) / den }`. -/
def ceilDiv (num den : Nat) : Nat := (num + den - 1) / den

/-- `func hPers(i int) []byte`: the literal byte list from the source;
`uint8(i)` is `i % 256`. -/
def hPers (i : Nat) : List Nat :=
  [85, 65, 95, 70, 52, 74, 117, 109, 98, 108, 101, 95, 72, i % 256, 0, 0]

/-- `func gPers(i int, j int) []byte`: the literal byte list from the source;
`uint8(i)` is `i % 256`, `uint8(j & 0xff)` is `(j &&& 0xff) % 256`, and
`uint8(j >> 8)` is `(j >>> 8) % 256`. -/
def gPers (i j : Nat) : List Nat :=
  [85, 65, 95, 70, 52, 74, 117, 109, 98, 108, 101, 95, 71, i % 256,
    (j &&& 0xff) % 256, (j >>> 8) % 256]

/-- One iteration step of the loop in `func xor(x, y []byte) []byte`, indexed
from position `i` over the remaining elements of `x`.  The Go loop body is
`if i <= len(y) { result[i] = x[i] ^ y[i] }`: when `i < len(y)` the guard holds
and `y[i]` is in range; when `i = len(y)` the guard still holds but `y[i]` is an
out-of-range access — a Go panic, modelled as `none`; when `i > len(y)` the
guard fails and `result[i]` keeps its zero value from `make`. -/
def xorAux (y : List Nat) : Nat → List Nat → Option (List Nat)
  | _, [] => some []
  | i, xi :: rest =>
    if i ≤ y.length then
      match y[i]? with
      | some yi =>
        match xorAux y (i + 1) rest with
        | some tail => some (Nat.xor xi yi :: tail)
        | none => none
      | none => none
    else
      match xorAux y (i + 1) rest with
      | some tail => some (0 :: tail)
      | none => none

/-- `func xor(x, y []byte) []byte`: `result := make([]byte, len(x))` then the
loop `for i := range x`.  `none` models a Go panic (out-of-range index). -/
def xor (x y : List Nat) : Option (List Nat) := xorAux y 0 x

/-- The left split length `lenL := min(lenH, lenM/2)` computed identically at
the top of both `F4Jumble` and `F4JumbleInv` (`func min(a, b int) int` is Go's
`if a < b { return a }; return b`). -/
def lenLOf (lenM : Nat) : Nat := if lenH < lenM / 2 then lenH else lenM / 2

/-- The right split length `lenR := lenM - lenL` computed identically in both
`F4Jumble` and `F4JumbleInv`. -/
def lenROf (lenM : Nat) : Nat := lenM - lenLOf lenM

/-- `func gRound(i int, u []byte, lenR int) ([]byte, error)`: for
`j = 0 .. ceilDiv(lenR, lenH) - 1` append the 64-byte hash of `u`
personalized with `gPers(i, j)`, then return `result[:lenR]`.  The `error`
return only propagates blake2b construction failures, absent here since the
hash is total. -/
def gRound (hash : Hash) (i : Nat) (u : List Nat) (lenR : Nat) : List Nat :=
  let inner : Nat → List Nat := fun j => hash (gPers i j) lenH u
  let result := (List.range (ceilDiv lenR lenH)).foldl (fun acc j => acc ++ inner j) []
  result.take lenR

/-- `func hRound(i int, u []byte, lenL int) ([]byte, error)`: one hash of `u`
personalized with `hPers(i)` at digest length `lenL`. -/
def hRound (hash : Hash) (i : Nat) (u : List Nat) (lenL : Nat) : List Nat :=
  hash (hPers i) lenL u

/-- Outcome of a call to `F4Jumble` / `F4JumbleInv`: a successful byte slice,
the `errors.New("invalid message length")` return, or a Go runtime panic
(only reachable through `xor`'s out-of-range access). -/
inductive F4Out : Type
  | ok (bytes : List Nat) : F4Out
  | invalidLength : F4Out
  | panicked : F4Out
  deriving DecidableEq, Repr

/-- `func F4Jumble(M []byte) ([]byte, error)`: length check, split
`a = M[:lenL]`, `b = M[lenL:]`, then the four Feistel rounds
`x = b⊕G(0,a)`, `y = a⊕H(0,x)`, `d = x⊕G(1,y)`, `c = y⊕H(1,d)`,
returning `append(c, d...)`. -/
def F4Jumble (hash : Hash) (M : List Nat) : F4Out :=
  let lenM := M.length
  if lenM < minLenM ∨ lenM > maxLenM then .invalidLength
  else
    let lenL := lenLOf lenM
    let lenR := lenROf lenM
    let a := M.take lenL
    let b := M.drop lenL
    let g0 := gRound hash 0 a lenR
    match xor b g0 with
    | none => .panicked
    | some x =>
      let h0 := hRound hash 0 x lenL
      match xor a h0 with
      | none => .panicked
      | some y =>
        let g1 := gRound hash 1 y lenR
        match xor x g1 with
        | none => .panicked
        | some d =>
          let h1 := hRound hash 1 d lenL
          match xor y h1 with
          | none => .panicked
          | some c => .ok (c ++ d)

/-- `func F4JumbleInv(M []byte) ([]byte, error)`: length check, split
`c = M[:lenL]`, `d = M[lenL:]`, then the rounds in reverse order
`y = c⊕H(1,d)`, `x = d⊕G(1,y)`, `a = y⊕H(0,x)`, `b = x⊕G(0,a)`,
returning `append(a, b...)`. -/
def F4JumbleInv (hash : Hash) (M : List Nat) : F4Out :=
  let lenM := M.length
  if lenM < minLenM ∨ lenM > maxLenM then .invalidLength
  else
    let lenL := lenLOf lenM
    let lenR := lenROf lenM
    let c := M.take lenL
    let d := M.drop lenL
    let h1 := hRound hash 1 d lenL
    match xor c h1 with
    | none => .panicked
    | some y =>
      let g1 := gRound hash 1 y lenR
      match xor d g1 with
      | none => .panicked
      | some x =>
        let h0 := hRound hash 0 x lenL
        match xor y h0 with
        | none => .panicked
        | some a =>
          let g0 := gRound hash 0 a lenR
          match xor x g0 with
          | none => .panicked
          | some b => .ok (a ++ b)

/-!
### The concrete hash collaborator

`Modelled from the spec:` §6 names the external collaborator — a personalized
cryptographic hash (`blake2b` in the Go source, an external library not part of
this repository) with contract
`hash(key = none, salt = none, personalization: 16-byte tag, outputLength: 1..64) → digest`.
The definitions below implement that collaborator, BLAKE2b (RFC 7693) with an
unkeyed, unsalted parameter block carrying the personalization, over `Nat`
words reduced `% 2^64`.
-/

/-- `2^64`, the word modulus of BLAKE2b. -/
def w64 : Nat := 18446744073709551616

/-- Right rotation of a 64-bit word. -/
def rotr (x n : Nat) : Nat := ((x >>> n) ||| (x <<< (64 - n))) % w64

/-- The BLAKE2b initialization vector (RFC 7693 §2.6). -/
def blakeIV : List Nat :=
  [0x6a09e667f3bcc908, 0xbb67ae8584caa73b, 0x3c6ef372fe94f82b, 0xa54ff53a5f1d36f1,
   0x510e527fade682d1, 0x9b05688c2b3e6c1f, 0x1f83d9abfb41bd6b, 0x5be0cd19137e2179]

/-- The BLAKE2b message schedule (RFC 7693 §2.7). -/
def blakeSigma : List (List Nat) :=
  [[0, 1, 2, 3, 4, 5, 6, 7, 8, 9, 10, 11, 12, 13, 14, 15],
   [14, 10, 4, 8, 9, 15, 13, 6, 1, 12, 0, 2, 11, 7, 5, 3],
   [11, 8, 12, 0, 5, 2, 15, 13, 10, 14, 3, 6, 7, 1, 9, 4],
   [7, 9, 3, 1, 13, 12, 11, 14, 2, 6, 5, 10, 4, 0, 15, 8],
   [9, 0, 5, 7, 2, 4, 10, 15, 14, 1, 11, 12, 6, 8, 3, 13],
   [2, 12, 6, 10, 0, 11, 8, 3, 4, 13, 7, 5, 15, 14, 1, 9],
   [12, 5, 1, 15, 14, 13, 4, 10, 0, 7, 6, 3, 9, 2, 8, 11],
   [13, 11, 7, 14, 12, 1, 3, 9, 5, 0, 15, 4, 8, 6, 2, 10],
   [6, 15, 14, 9, 11, 3, 0, 8, 12, 2, 13, 7, 1, 4, 10, 5],
   [10, 2, 8, 4, 7, 6, 1, 5, 15, 11, 9, 14, 3, 12, 13, 0]]

/-- Little-endian word from a byte list (first byte least significant). -/
def leWord (bytes : List Nat) : Nat := bytes.foldr (fun b acc => b + 256 * acc) 0

/-- The 8 little-endian bytes of a 64-bit word. -/
def wordBytes (w : Nat) : List Nat := (List.range 8).map (fun k => w / 256 ^ k % 256)

/-- The 16 little-endian message words of a 128-byte block. -/
def blockWords (block : List Nat) : List Nat :=
  (List.range 16).map (fun k => leWord ((block.drop (8 * k)).take 8))

/-- The BLAKE2b mixing function G (RFC 7693 §3.1) acting on positions
`a b c d` of the 16-word work vector with message words `x y`. -/
def gMix (v : List Nat) (a b c d x y : Nat) : List Nat :=
  let va := (v.getD a 0 + v.getD b 0 + x) % w64
  let vd := rotr (Nat.xor (v.getD d 0) va) 32
  let vc := (v.getD c 0 + vd) % w64
  let vb := rotr (Nat.xor (v.getD b 0) vc) 24
  let va2 := (va + vb + y) % w64
  let vd2 := rotr (Nat.xor vd va2) 16
  let vc2 := (vc + vd2) % w64
  let vb2 := rotr (Nat.xor vb vc2) 63
  (((v.set a va2).set b vb2).set c vc2).set d vd2

/-- One of the 12 BLAKE2b rounds: eight G applications scheduled by
`blakeSigma` row `r % 10`. -/
def blakeRound (m v : List Nat) (r : Nat) : List Nat :=
  let s := blakeSigma.getD (r % 10) []
  let mi : Nat → Nat := fun k => m.getD (s.getD k 0) 0
  let v1 := gMix v 0 4 8 12 (mi 0) (mi 1)
  let v2 := gMix v1 1 5 9 13 (mi 2) (mi 3)
  let v3 := gMix v2 2 6 10 14 (mi 4) (mi 5)
  let v4 := gMix v3 3 7 11 15 (mi 6) (mi 7)
  let v5 := gMix v4 0 5 10 15 (mi 8) (mi 9)
  let v6 := gMix v5 1 6 11 12 (mi 10) (mi 11)
  let v7 := gMix v6 2 7 8 13 (mi 12) (mi 13)
  gMix v7 3 4 9 14 (mi 14) (mi 15)

/-- The BLAKE2b compression function F (RFC 7693 §3.2): `t` is the byte
counter, `last` marks the final block. -/
def blakeCompress (h : List Nat) (block : List Nat) (t : Nat) (last : Bool) : List Nat :=
  let m := blockWords block
  let v := h ++ blakeIV
  let v := v.set 12 (Nat.xor (v.getD 12 0) (t % w64))
  let v := v.set 13 (Nat.xor (v.getD 13 0) (t / w64 % w64))
  let v := if last then v.set 14 (Nat.xor (v.getD 14 0) (w64 - 1)) else v
  let v := (List.range 12).foldl (fun vv r => blakeRound m vv r) v
  (List.range 8).map (fun k => Nat.xor (h.getD k 0) (Nat.xor (v.getD k 0) (v.getD (k + 8) 0)))

/-- Split a message into 128-byte blocks, structurally recursing on a fuel
bound (any fuel of at least `input.length / 128` steps gives the same
answer). -/
def blakeChunksFuel : Nat → List Nat → List (List Nat)
  | 0, input => [input]
  | fuel + 1, input =>
    if input.length ≤ 128 then [input]
    else input.take 128 :: blakeChunksFuel fuel (input.drop 128)

/-- Split a message into 128-byte blocks; the final block is whatever remains
(possibly the whole message, possibly empty for the empty message). -/
def blakeChunks (input : List Nat) : List (List Nat) :=
  blakeChunksFuel input.length input

/-- Run the compression function over the blocks: every block but the last with
`last = false` and counter advanced by 128; the last block zero-padded to 128
bytes with the counter at the total message length and `last = true`. -/
def blakeBlocksRun (h : List Nat) (t : Nat) : List (List Nat) → List Nat
  | [] => h
  | [lastBlock] =>
    blakeCompress h (lastBlock ++ List.replicate (128 - lastBlock.length) 0)
      (t + lastBlock.length) true
  | blk :: rest => blakeBlocksRun (blakeCompress h blk (t + 128) false) (t + 128) rest

/-- BLAKE2b (RFC 7693) with no key, no salt, a 16-byte personalization and a
requested digest length: the state is initialized from the IV XOR the
parameter block (digest length and fanout/depth 1 in word 0, personalization
in words 6 and 7), the blocks are compressed, and the digest is the first
`outLen` bytes of the little-endian serialization of the state. -/
def blake2b (pers : List Nat) (outLen : Nat) (input : List Nat) : List Nat :=
  let h0 :=
    [Nat.xor (blakeIV.getD 0 0) (0x01010000 ||| outLen % 256),
     blakeIV.getD 1 0, blakeIV.getD 2 0, blakeIV.getD 3 0,
     blakeIV.getD 4 0, blakeIV.getD 5 0,
     Nat.xor (blakeIV.getD 6 0) (leWord (pers.take 8)),
     Nat.xor (blakeIV.getD 7 0) (leWord ((pers.drop 8).take 8))]
  let hs := blakeBlocksRun h0 0 (blakeChunks input)
  ((hs.map wordBytes).flatten).take outLen

/-!
### Named intermediate values

The Feistel intermediates of `F4Jumble` (`a b x y d c`) and of `F4JumbleInv`
(`c d y x a b`), written out as total functions so the theorems can name
them.  Each `List.zipWith Nat.xor` below is exactly the value the
corresponding `xor` call computes when it does not panic.
-/

/-- `a := M[:lenL]` in `F4Jumble`. -/
def aOf (M : List Nat) : List Nat := M.take (lenLOf M.length)

/-- `b := M[lenL:]` in `F4Jumble`. -/
def bOf (M : List Nat) : List Nat := M.drop (lenLOf M.length)

/-- `g0 := gRound(0, a, lenR)` in `F4Jumble`. -/
def g0Of (hash : Hash) (M : List Nat) : List Nat :=
  gRound hash 0 (aOf M) (lenROf M.length)

/-- `x := xor(b, g0)` in `F4Jumble`. -/
def xOf (hash : Hash) (M : List Nat) : List Nat :=
  List.zipWith Nat.xor (bOf M) (g0Of hash M)

/-- `h0 := hRound(0, x, lenL)` in `F4Jumble`. -/
def h0Of (hash : Hash) (M : List Nat) : List Nat :=
  hRound hash 0 (xOf hash M) (lenLOf M.length)

/-- `y := xor(a, h0)` in `F4Jumble`. -/
def yOf (hash : Hash) (M : List Nat) : List Nat :=
  List.zipWith Nat.xor (aOf M) (h0Of hash M)

/-- `g1 := gRound(1, y, lenR)` in `F4Jumble`. -/
def g1Of (hash : Hash) (M : List Nat) : List Nat :=
  gRound hash 1 (yOf hash M) (lenROf M.length)

/-- `d := xor(x, g1)` in `F4Jumble`. -/
def dOf (hash : Hash) (M : List Nat) : List Nat :=
  List.zipWith Nat.xor (xOf hash M) (g1Of hash M)

/-- `h1 := hRound(1, d, lenL)` in `F4Jumble`. -/
def h1Of (hash : Hash) (M : List Nat) : List Nat :=
  hRound hash 1 (dOf hash M) (lenLOf M.length)

/-- `c := xor(y, h1)` in `F4Jumble`. -/
def cOf (hash : Hash) (M : List Nat) : List Nat :=
  List.zipWith Nat.xor (yOf hash M) (h1Of hash M)

/-- `c := M[:lenL]` in `F4JumbleInv`. -/
def cIOf (N : List Nat) : List Nat := N.take (lenLOf N.length)

/-- `d := M[lenL:]` in `F4JumbleInv`. -/
def dIOf (N : List Nat) : List Nat := N.drop (lenLOf N.length)

/-- `h1 := hRound(1, d, lenL)` in `F4JumbleInv`. -/
def h1IOf (hash : Hash) (N : List Nat) : List Nat :=
  hRound hash 1 (dIOf N) (lenLOf N.length)

/-- `y := xor(c, h1)` in `F4JumbleInv`. -/
def yIOf (hash : Hash) (N : List Nat) : List Nat :=
  List.zipWith Nat.xor (cIOf N) (h1IOf hash N)

/-- `g1 := gRound(1, y, lenR)` in `F4JumbleInv`. -/
def g1IOf (hash : Hash) (N : List Nat) : List Nat :=
  gRound hash 1 (yIOf hash N) (lenROf N.length)

/-- `x := xor(d, g1)` in `F4JumbleInv`. -/
def xIOf (hash : Hash) (N : List Nat) : List Nat :=
  List.zipWith Nat.xor (dIOf N) (g1IOf hash N)

/-- `h0 := hRound(0, x, lenL)` in `F4JumbleInv`. -/
def h0IOf (hash : Hash) (N : List Nat) : List Nat :=
  hRound hash 0 (xIOf hash N) (lenLOf N.length)

/-- `a := xor(y, h0)` in `F4JumbleInv`. -/
def aIOf (hash : Hash) (N : List Nat) : List Nat :=
  List.zipWith Nat.xor (yIOf hash N) (h0IOf hash N)

/-- `g0 := gRound(0, a, lenR)` in `F4JumbleInv`. -/
def g0IOf (hash : Hash) (N : List Nat) : List Nat :=
  gRound hash 0 (aIOf hash N) (lenROf N.length)

/-- `b := xor(x, g0)` in `F4JumbleInv`. -/
def bIOf (hash : Hash) (N : List Nat) : List Nat :=
  List.zipWith Nat.xor (xIOf hash N) (g0IOf hash N)

/-!
### Spec-side definitions and concrete data
-/

/-- The expansion described by the spec for the G round: the blocks
`hash(gPers(i, j), 64, u)` for `j = 0 .. ceil(outLen/64) - 1` concatenated in
increasing `j` order and truncated to `outLen` bytes. -/
def gConcatSpec (hash : Hash) (i : Nat) (u : List Nat) (outLen : Nat) : List Nat :=
  (((List.range (ceilDiv outLen 64)).map (fun j => hash (gPers i j) 64 u)).flatten).take outLen

/-- The ASCII bytes of the domain-separation tag `"UA_F4Jumble_"`. -/
def uaTag : List Nat := "UA_F4Jumble_".toList.map Char.toNat

/-- A trivially well-behaved hash used to instantiate the generic theorems:
it returns `outLen` zero bytes. -/
def zeroHash : Hash := fun _ outLen _ => List.replicate outLen 0

/-- The 48-byte known-answer input as the SPEC writes it (hex
`5d7a8f73…939dafaa2ef6…905d042b`, byte 25 = `0xaa`). -/
def katInputSpec : List Nat :=
  [93, 122, 143, 115, 154, 45, 158, 148, 91, 12, 225, 82, 168, 4, 158, 41,
   76, 77, 110, 102, 177, 100, 147, 157, 175, 170, 46, 246, 238, 105, 33, 72,
   28, 221, 134, 179, 204, 67, 24, 217, 97, 79, 200, 32, 144, 93, 4, 43]

/-- The 48-byte known-answer input as the SOURCE's doc comment writes it
(identical except byte 25 = `0xfa`). -/
def katInputSrc : List Nat :=
  [93, 122, 143, 115, 154, 45, 158, 148, 91, 12, 225, 82, 168, 4, 158, 41,
   76, 77, 110, 102, 177, 100, 147, 157, 175, 250, 46, 246, 238, 105, 33, 72,
   28, 221, 134, 179, 204, 67, 24, 217, 97, 79, 200, 32, 144, 93, 4, 43]

/-- The expected 48-byte known-answer output (spec and source agree on it):
hex `0304d029…e5858d22`. -/
def katOutput : List Nat :=
  [3, 4, 208, 41, 20, 27, 153, 93, 165, 56, 124, 18, 89, 112, 103, 53,
   4, 214, 199, 100, 217, 30, 166, 192, 130, 18, 55, 112, 199, 19, 156, 205,
   136, 238, 39, 54, 140, 208, 192, 146, 26, 4, 68, 200, 229, 133, 141, 34]

/-!
### Behaviour of the `xor` loop
-/

/-- When the remaining indices all fall inside `y`, the loop computes the
pointwise xor with the corresponding suffix of `y`. -/
theorem xorAux_some (y x : List Nat) :
    ∀ i : Nat, i + x.length ≤ y.length →
      xorAux y i x = some (List.zipWith Nat.xor x (y.drop i)) := by
  induction x with
  | nil => intro i _; simp [xorAux]
  | cons xi rest ih =>
    intro i h
    have hi : i < y.length := by simp only [List.length_cons] at h; omega
    have h2 : i + 1 + rest.length ≤ y.length := by
      simp only [List.length_cons] at h; omega
    simp only [xorAux, if_pos (Nat.le_of_lt hi), List.getElem?_eq_getElem hi,
      ih (i + 1) h2]
    rw [List.drop_eq_getElem_cons hi, List.zipWith_cons_cons]

/-- When some remaining index reaches `y.length`, the loop hits the
out-of-range access `y[len(y)]` and panics. -/
theorem xorAux_none (y x : List Nat) :
    ∀ i : Nat, x ≠ [] → i ≤ y.length → y.length < i + x.length →
      xorAux y i x = none := by
  induction x with
  | nil => intro i hne _ _; exact absurd rfl hne
  | cons xi rest ih =>
    intro i _ hle hlt
    by_cases hi : i = y.length
    · subst hi
      simp [xorAux, List.getElem?_eq_none (le_refl y.length)]
    · have hilt : i < y.length := lt_of_le_of_ne hle hi
      have hrest : rest ≠ [] := by
        intro he
        subst he
        simp only [List.length_cons, List.length_nil] at hlt
        omega
      have hlt2 : y.length < i + 1 + rest.length := by
        simp only [List.length_cons] at hlt; omega
      simp [xorAux, if_pos hle, List.getElem?_eq_getElem hilt,
        ih (i + 1) hrest hilt hlt2]

/-- `xor` succeeds exactly as pointwise xor when `x` is no longer than `y`. -/
theorem xor_some (x y : List Nat) (h : x.length ≤ y.length) :
    xor x y = some (List.zipWith Nat.xor x y) := by
  simpa [xor] using xorAux_some y x 0 (by omega)

/-- `xor` panics when `y` is strictly shorter than `x`. -/
theorem xor_none (x y : List Nat) (h : y.length < x.length) :
    xor x y = none := by
  have hne : x ≠ [] := by
    cases x with
    | nil => simp at h
    | cons a l => simp
  exact xorAux_none y x 0 hne (Nat.zero_le _) (by omega)

/-- Xoring the same list twice gives back the original (the Feistel inversion
principle), provided the mask is at least as long. -/
theorem zipWith_xor_cancel (a : List Nat) :
    ∀ b : List Nat, a.length ≤ b.length →
      List.zipWith Nat.xor (List.zipWith Nat.xor a b) b = a := by
  induction a with
  | nil => intro b _; simp
  | cons x xs ih =>
    intro b h
    cases b with
    | nil => simp at h
    | cons y ys =>
      simp only [List.zipWith_cons_cons]
      rw [ih ys (by simp only [List.length_cons] at h; omega)]
      have : Nat.xor (Nat.xor x y) y = x := Nat.xor_cancel_right y x
      rw [this]

/-!
### Behaviour of `gRound`, `hRound` and the split
-/

/-- The append-accumulating loop of `gRound` is the flattening of the block
list. -/
theorem foldl_append_eq_flatten (f : Nat → List Nat) :
    ∀ (l : List Nat) (acc : List Nat),
      l.foldl (fun a j => a ++ f j) acc = acc ++ (l.map f).flatten := by
  intro l
  induction l with
  | nil => intro acc; simp
  | cons j rest ih => intro acc; simp [ih]

/-- `gRound` is the truncation of the concatenated personalized blocks. -/
theorem gRound_eq_take (hash : Hash) (i : Nat) (u : List Nat) (lenR : Nat) :
    gRound hash i u lenR =
      (((List.range (ceilDiv lenR lenH)).map
          (fun j => hash (gPers i j) lenH u)).flatten).take lenR := by
  simp [gRound, foldl_append_eq_flatten]

/-- Total length of the concatenated blocks: `ceilDiv lenR lenH` blocks of
`lenH` bytes each. -/
theorem flatten_blocks_length (hash : Hash) (Hg : HashGood hash)
    (i : Nat) (u : List Nat) (n : Nat) :
    (((List.range n).map (fun j => hash (gPers i j) lenH u)).flatten).length
      = n * lenH := by
  rw [List.length_flatten, List.map_map]
  have hcong : ((List.range n).map (List.length ∘ fun j => hash (gPers i j) lenH u))
      = (List.range n).map (fun _ => lenH) := by
    apply List.map_congr_left
    intro j _
    exact Hg (gPers i j) lenH u
  rw [hcong]
  simp [List.map_const', List.sum_replicate, smul_eq_mul]

/-- `gRound` really produces `lenR` bytes. -/
theorem gRound_length (hash : Hash) (Hg : HashGood hash)
    (i : Nat) (u : List Nat) (lenR : Nat) :
    (gRound hash i u lenR).length = lenR := by
  rw [gRound_eq_take, List.length_take, flatten_blocks_length hash Hg]
  have h2 : lenR ≤ ceilDiv lenR lenH * lenH := by
    unfold ceilDiv lenH
    omega
  omega

/-- `hRound` really produces `lenL` bytes. -/
theorem hRound_length (hash : Hash) (Hg : HashGood hash)
    (i : Nat) (u : List Nat) (lenL : Nat) :
    (hRound hash i u lenL).length = lenL :=
  Hg (hPers i) lenL u

/-- The left length is at most half the message. -/
theorem lenLOf_le_half (lenM : Nat) : lenLOf lenM ≤ lenM / 2 := by
  unfold lenLOf lenH
  split <;> omega

/-- The left length is at most the whole message. -/
theorem lenLOf_le (lenM : Nat) : lenLOf lenM ≤ lenM :=
  le_trans (lenLOf_le_half lenM) (Nat.div_le_self lenM 2)

/-- The split partitions the length exactly. -/
theorem lenLOf_add_lenROf (lenM : Nat) : lenLOf lenM + lenROf lenM = lenM := by
  have := lenLOf_le lenM
  unfold lenROf
  omega

/-!
### Lengths of the Feistel intermediates
-/

theorem aOf_length (M : List Nat) : (aOf M).length = lenLOf M.length := by
  have := lenLOf_le M.length
  simp only [aOf, List.length_take]
  omega

theorem bOf_length (M : List Nat) : (bOf M).length = lenROf M.length := by
  simp [bOf, lenROf]

theorem g0Of_length (hash : Hash) (Hg : HashGood hash) (M : List Nat) :
    (g0Of hash M).length = lenROf M.length :=
  gRound_length hash Hg 0 (aOf M) (lenROf M.length)

theorem xOf_length (hash : Hash) (Hg : HashGood hash) (M : List Nat) :
    (xOf hash M).length = lenROf M.length := by
  simp only [xOf, List.length_zipWith, bOf_length, g0Of_length hash Hg]
  omega

theorem h0Of_length (hash : Hash) (Hg : HashGood hash) (M : List Nat) :
    (h0Of hash M).length = lenLOf M.length :=
  hRound_length hash Hg 0 (xOf hash M) (lenLOf M.length)

theorem yOf_length (hash : Hash) (Hg : HashGood hash) (M : List Nat) :
    (yOf hash M).length = lenLOf M.length := by
  simp only [yOf, List.length_zipWith, aOf_length, h0Of_length hash Hg]
  omega

theorem g1Of_length (hash : Hash) (Hg : HashGood hash) (M : List Nat) :
    (g1Of hash M).length = lenROf M.length :=
  gRound_length hash Hg 1 (yOf hash M) (lenROf M.length)

theorem dOf_length (hash : Hash) (Hg : HashGood hash) (M : List Nat) :
    (dOf hash M).length = lenROf M.length := by
  simp only [dOf, List.length_zipWith, xOf_length hash Hg, g1Of_length hash Hg]
  omega

theorem h1Of_length (hash : Hash) (Hg : HashGood hash) (M : List Nat) :
    (h1Of hash M).length = lenLOf M.length :=
  hRound_length hash Hg 1 (dOf hash M) (lenLOf M.length)

theorem cOf_length (hash : Hash) (Hg : HashGood hash) (M : List Nat) :
    (cOf hash M).length = lenLOf M.length := by
  simp only [cOf, List.length_zipWith, yOf_length hash Hg, h1Of_length hash Hg]
  omega

theorem cIOf_length (N : List Nat) : (cIOf N).length = lenLOf N.length := by
  have := lenLOf_le N.length
  simp only [cIOf, List.length_take]
  omega

theorem dIOf_length (N : List Nat) : (dIOf N).length = lenROf N.length := by
  simp [dIOf, lenROf]

theorem h1IOf_length (hash : Hash) (Hg : HashGood hash) (N : List Nat) :
    (h1IOf hash N).length = lenLOf N.length :=
  hRound_length hash Hg 1 (dIOf N) (lenLOf N.length)

theorem yIOf_length (hash : Hash) (Hg : HashGood hash) (N : List Nat) :
    (yIOf hash N).length = lenLOf N.length := by
  simp only [yIOf, List.length_zipWith, cIOf_length, h1IOf_length hash Hg]
  omega

theorem g1IOf_length (hash : Hash) (Hg : HashGood hash) (N : List Nat) :
    (g1IOf hash N).length = lenROf N.length :=
  gRound_length hash Hg 1 (yIOf hash N) (lenROf N.length)

theorem xIOf_length (hash : Hash) (Hg : HashGood hash) (N : List Nat) :
    (xIOf hash N).length = lenROf N.length := by
  simp only [xIOf, List.length_zipWith, dIOf_length, g1IOf_length hash Hg]
  omega

theorem h0IOf_length (hash : Hash) (Hg : HashGood hash) (N : List Nat) :
    (h0IOf hash N).length = lenLOf N.length :=
  hRound_length hash Hg 0 (xIOf hash N) (lenLOf N.length)

theorem aIOf_length (hash : Hash) (Hg : HashGood hash) (N : List Nat) :
    (aIOf hash N).length = lenLOf N.length := by
  simp only [aIOf, List.length_zipWith, yIOf_length hash Hg, h0IOf_length hash Hg]
  omega

theorem g0IOf_length (hash : Hash) (Hg : HashGood hash) (N : List Nat) :
    (g0IOf hash N).length = lenROf N.length :=
  gRound_length hash Hg 0 (aIOf hash N) (lenROf N.length)

theorem bIOf_length (hash : Hash) (Hg : HashGood hash) (N : List Nat) :
    (bIOf hash N).length = lenROf N.length := by
  simp only [bIOf, List.length_zipWith, xIOf_length hash Hg, g0IOf_length hash Hg]
  omega

/-!
### Evaluation of the transforms on valid-length input
-/

/-- The four forward `xor` calls, as rewrite equations. -/
theorem xor_b_g0 (hash : Hash) (Hg : HashGood hash) (M : List Nat) :
    xor (M.drop (lenLOf M.length))
        (gRound hash 0 (M.take (lenLOf M.length)) (lenROf M.length))
      = some (xOf hash M) := by
  rw [xor_some]
  · rfl
  · rw [gRound_length hash Hg]
    simp [lenROf]

theorem xor_a_h0 (hash : Hash) (Hg : HashGood hash) (M : List Nat) :
    xor (M.take (lenLOf M.length))
        (hRound hash 0 (xOf hash M) (lenLOf M.length))
      = some (yOf hash M) := by
  rw [xor_some]
  · rfl
  · rw [hRound_length hash Hg]
    have := lenLOf_le M.length
    simp only [List.length_take]
    omega

theorem xor_x_g1 (hash : Hash) (Hg : HashGood hash) (M : List Nat) :
    xor (xOf hash M) (gRound hash 1 (yOf hash M) (lenROf M.length))
      = some (dOf hash M) := by
  rw [xor_some]
  · rfl
  · rw [gRound_length hash Hg, xOf_length hash Hg]

theorem xor_y_h1 (hash : Hash) (Hg : HashGood hash) (M : List Nat) :
    xor (yOf hash M) (hRound hash 1 (dOf hash M) (lenLOf M.length))
      = some (cOf hash M) := by
  rw [xor_some]
  · rfl
  · rw [hRound_length hash Hg, yOf_length hash Hg]

/-- On a valid-length message, `F4Jumble` returns `c ‖ d`. -/
theorem F4Jumble_eq_ok (hash : Hash) (Hg : HashGood hash) (M : List Nat)
    (hmin : minLenM ≤ M.length) (hmax : M.length ≤ maxLenM) :
    F4Jumble hash M = .ok (cOf hash M ++ dOf hash M) := by
  have hcond : ¬(M.length < minLenM ∨ M.length > maxLenM) := by
    unfold minLenM maxLenM at *
    omega
  simp only [F4Jumble]
  rw [if_neg hcond]
  simp only [xor_b_g0 hash Hg, xor_a_h0 hash Hg, xor_x_g1 hash Hg,
    xor_y_h1 hash Hg]

/-- The four inverse `xor` calls, as rewrite equations. -/
theorem xor_c_h1 (hash : Hash) (Hg : HashGood hash) (N : List Nat) :
    xor (N.take (lenLOf N.length))
        (hRound hash 1 (N.drop (lenLOf N.length)) (lenLOf N.length))
      = some (yIOf hash N) := by
  rw [xor_some]
  · rfl
  · rw [hRound_length hash Hg]
    have := lenLOf_le N.length
    simp only [List.length_take]
    omega

theorem xor_d_g1 (hash : Hash) (Hg : HashGood hash) (N : List Nat) :
    xor (N.drop (lenLOf N.length))
        (gRound hash 1 (yIOf hash N) (lenROf N.length))
      = some (xIOf hash N) := by
  rw [xor_some]
  · rfl
  · rw [gRound_length hash Hg]
    simp [lenROf]

theorem xor_y_h0 (hash : Hash) (Hg : HashGood hash) (N : List Nat) :
    xor (yIOf hash N) (hRound hash 0 (xIOf hash N) (lenLOf N.length))
      = some (aIOf hash N) := by
  rw [xor_some]
  · rfl
  · rw [hRound_length hash Hg, yIOf_length hash Hg]

theorem xor_x_g0 (hash : Hash) (Hg : HashGood hash) (N : List Nat) :
    xor (xIOf hash N) (gRound hash 0 (aIOf hash N) (lenROf N.length))
      = some (bIOf hash N) := by
  rw [xor_some]
  · rfl
  · rw [gRound_length hash Hg, xIOf_length hash Hg]

/-- On a valid-length message, `F4JumbleInv` returns `a ‖ b`. -/
theorem F4JumbleInv_eq_ok (hash : Hash) (Hg : HashGood hash) (N : List Nat)
    (hmin : minLenM ≤ N.length) (hmax : N.length ≤ maxLenM) :
    F4JumbleInv hash N = .ok (aIOf hash N ++ bIOf hash N) := by
  have hcond : ¬(N.length < minLenM ∨ N.length > maxLenM) := by
    unfold minLenM maxLenM at *
    omega
  simp only [F4JumbleInv]
  rw [if_neg hcond]
  simp only [xor_c_h1 hash Hg, xor_d_g1 hash Hg, xor_y_h0 hash Hg,
    xor_x_g0 hash Hg]

/-!
### Round-trip
-/

/-- The forward output `c ‖ d` has the input's length. -/
theorem jumbleOut_length (hash : Hash) (Hg : HashGood hash) (M : List Nat) :
    (cOf hash M ++ dOf hash M).length = M.length := by
  rw [List.length_append, cOf_length hash Hg, dOf_length hash Hg,
    lenLOf_add_lenROf]

/-- The inverse output `a ‖ b` has the input's length. -/
theorem invOut_length (hash : Hash) (Hg : HashGood hash) (N : List Nat) :
    (aIOf hash N ++ bIOf hash N).length = N.length := by
  rw [List.length_append, aIOf_length hash Hg, bIOf_length hash Hg,
    lenLOf_add_lenROf]

/-- Applying the inverse rounds to the forward output recovers the message. -/
theorem F4JumbleInv_after_F4Jumble (hash : Hash) (Hg : HashGood hash)
    (M : List Nat) (hmin : minLenM ≤ M.length) (hmax : M.length ≤ maxLenM) :
    F4JumbleInv hash (cOf hash M ++ dOf hash M) = .ok M := by
  have hJlen := jumbleOut_length hash Hg M
  have hcI : cIOf (cOf hash M ++ dOf hash M) = cOf hash M := by
    unfold cIOf
    rw [hJlen, ← cOf_length hash Hg M]
    exact List.take_left _ _
  have hdI : dIOf (cOf hash M ++ dOf hash M) = dOf hash M := by
    unfold dIOf
    rw [hJlen, ← cOf_length hash Hg M]
    exact List.drop_left _ _
  have hyI : yIOf hash (cOf hash M ++ dOf hash M) = yOf hash M := by
    unfold yIOf h1IOf
    rw [hcI, hdI, hJlen]
    show List.zipWith Nat.xor
        (List.zipWith Nat.xor (yOf hash M) (h1Of hash M)) (h1Of hash M)
      = yOf hash M
    exact zipWith_xor_cancel _ _
      (by simp [yOf_length hash Hg, h1Of_length hash Hg])
  have hxI : xIOf hash (cOf hash M ++ dOf hash M) = xOf hash M := by
    unfold xIOf g1IOf
    rw [hdI, hyI, hJlen]
    show List.zipWith Nat.xor
        (List.zipWith Nat.xor (xOf hash M) (g1Of hash M)) (g1Of hash M)
      = xOf hash M
    exact zipWith_xor_cancel _ _
      (by simp [xOf_length hash Hg, g1Of_length hash Hg])
  have haI : aIOf hash (cOf hash M ++ dOf hash M) = aOf M := by
    unfold aIOf h0IOf
    rw [hyI, hxI, hJlen]
    show List.zipWith Nat.xor
        (List.zipWith Nat.xor (aOf M) (h0Of hash M)) (h0Of hash M)
      = aOf M
    exact zipWith_xor_cancel _ _
      (by simp [aOf_length, h0Of_length hash Hg])
  have hbI : bIOf hash (cOf hash M ++ dOf hash M) = bOf M := by
    unfold bIOf g0IOf
    rw [hxI, haI, hJlen]
    show List.zipWith Nat.xor
        (List.zipWith Nat.xor (bOf M) (g0Of hash M)) (g0Of hash M)
      = bOf M
    exact zipWith_xor_cancel _ _
      (by simp [bOf_length, g0Of_length hash Hg])
  rw [F4JumbleInv_eq_ok hash Hg _ (by rw [hJlen]; exact hmin)
      (by rw [hJlen]; exact hmax),
    haI, hbI]
  have : aOf M ++ bOf M = M := by
    unfold aOf bOf
    exact List.take_append_drop _ _
  rw [this]

/-- Applying the forward rounds to the inverse output recovers the message. -/
theorem F4Jumble_after_F4JumbleInv (hash : Hash) (Hg : HashGood hash)
    (N : List Nat) (hmin : minLenM ≤ N.length) (hmax : N.length ≤ maxLenM) :
    F4Jumble hash (aIOf hash N ++ bIOf hash N) = .ok N := by
  have hUlen := invOut_length hash Hg N
  have haF : aOf (aIOf hash N ++ bIOf hash N) = aIOf hash N := by
    unfold aOf
    rw [hUlen, ← aIOf_length hash Hg N]
    exact List.take_left _ _
  have hbF : bOf (aIOf hash N ++ bIOf hash N) = bIOf hash N := by
    unfold bOf
    rw [hUlen, ← aIOf_length hash Hg N]
    exact List.drop_left _ _
  have hxF : xOf hash (aIOf hash N ++ bIOf hash N) = xIOf hash N := by
    unfold xOf g0Of
    rw [hbF, haF, hUlen]
    show List.zipWith Nat.xor
        (List.zipWith Nat.xor (xIOf hash N) (g0IOf hash N)) (g0IOf hash N)
      = xIOf hash N
    exact zipWith_xor_cancel _ _
      (by simp [xIOf_length hash Hg, g0IOf_length hash Hg])
  have hyF : yOf hash (aIOf hash N ++ bIOf hash N) = yIOf hash N := by
    unfold yOf h0Of
    rw [haF, hxF, hUlen]
    show List.zipWith Nat.xor
        (List.zipWith Nat.xor (yIOf hash N) (h0IOf hash N)) (h0IOf hash N)
      = yIOf hash N
    exact zipWith_xor_cancel _ _
      (by simp [yIOf_length hash Hg, h0IOf_length hash Hg])
  have hdF : dOf hash (aIOf hash N ++ bIOf hash N) = dIOf N := by
    unfold dOf g1Of
    rw [hxF, hyF, hUlen]
    show List.zipWith Nat.xor
        (List.zipWith Nat.xor (dIOf N) (g1IOf hash N)) (g1IOf hash N)
      = dIOf N
    exact zipWith_xor_cancel _ _
      (by simp [dIOf_length, g1IOf_length hash Hg])
  have hcF : cOf hash (aIOf hash N ++ bIOf hash N) = cIOf N := by
    unfold cOf h1Of
    rw [hyF, hdF, hUlen]
    show List.zipWith Nat.xor
        (List.zipWith Nat.xor (cIOf N) (h1IOf hash N)) (h1IOf hash N)
      = cIOf N
    exact zipWith_xor_cancel _ _
      (by simp [cIOf_length, h1IOf_length hash Hg])
  rw [F4Jumble_eq_ok hash Hg _ (by rw [hUlen]; exact hmin)
      (by rw [hUlen]; exact hmax),
    hcF, hdF]
  have : cIOf N ++ dIOf N = N := by
    unfold cIOf dIOf
    exact List.take_append_drop _ _
  rw [this]

/-!
### The claims
-/

/-- A well-behaved hash always exists; `zeroHash` satisfies the digest-length
contract. -/
theorem zeroHash_good : HashGood zeroHash := by
  intro pers outLen input
  simp [zeroHash]

/-- Claim C1: for every byte sequence `M` with `48 ≤ len(M) ≤ 4194368`,
`F4Jumble(M)` succeeds and `F4JumbleInv(F4Jumble(M)) = M`, assuming the
underlying personalized hash is a deterministic function that does
not fail. -/
theorem claim1_roundtrip (hash : Hash) (Hg : HashGood hash) (M : List Nat)
    (hmin : 48 ≤ M.length) (hmax : M.length ≤ 4194368) :
    ∃ J, F4Jumble hash M = .ok J ∧ F4JumbleInv hash J = .ok M :=
  ⟨cOf hash M ++ dOf hash M,
    F4Jumble_eq_ok hash Hg M hmin hmax,
    F4JumbleInv_after_F4Jumble hash Hg M hmin hmax⟩

/-- Witness for C1 at a concrete hash and message. -/
theorem claim1_roundtrip_witness :
    ∃ J, F4Jumble zeroHash (List.replicate 48 0) = .ok J
      ∧ F4JumbleInv zeroHash J = .ok (List.replicate 48 0) :=
  claim1_roundtrip zeroHash zeroHash_good (List.replicate 48 0)
    (by simp) (by simp)

/-- Claim C2: for every byte sequence `M` with `48 ≤ len(M) ≤ 4194368`,
`F4JumbleInv(M)` succeeds and `F4Jumble(F4JumbleInv(M)) = M`, assuming the
underlying personalized hash is a deterministic function that does
not fail. -/
theorem claim2_involution (hash : Hash) (Hg : HashGood hash) (M : List Nat)
    (hmin : 48 ≤ M.length) (hmax : M.length ≤ 4194368) :
    ∃ U, F4JumbleInv hash M = .ok U ∧ F4Jumble hash U = .ok M :=
  ⟨aIOf hash M ++ bIOf hash M,
    F4JumbleInv_eq_ok hash Hg M hmin hmax,
    F4Jumble_after_F4JumbleInv hash Hg M hmin hmax⟩

/-- Witness for C2 at a concrete hash and message. -/
theorem claim2_involution_witness :
    ∃ U, F4JumbleInv zeroHash (List.replicate 48 0) = .ok U
      ∧ F4Jumble zeroHash U = .ok (List.replicate 48 0) :=
  claim2_involution zeroHash zeroHash_good (List.replicate 48 0)
    (by simp) (by simp)

set_option maxRecDepth 1000000 in
/-- Claim C3 counterexample: on the 48-byte input exactly as the spec's hex
writes it (byte 25 = `0xaa`), `F4Jumble` under BLAKE2b does NOT return the
expected output — the spec's input hex has a one-character typo. -/
theorem claim3_counterexample :
    F4Jumble blake2b katInputSpec ≠ .ok katOutput := by decide

set_option maxRecDepth 1000000 in
/-- Claim C3 (amended): with the input byte at offset 25 read as `0xfa` (hex
`…b164939daffa2ef6…`, as the source's doc comment writes it), `F4Jumble`
produces exactly the expected 48-byte output and `F4JumbleInv` maps that
output back to the input. -/
theorem claim3_kat :
    F4Jumble blake2b katInputSrc = .ok katOutput
  ∧ F4JumbleInv blake2b katOutput = .ok katInputSrc := by decide

/-- Claim C4: for every message of valid length both transforms succeed and
return exactly `len(M)` bytes, assuming the personalized hash returns digests
of exactly the requested length and does not fail. -/
theorem claim4_length_preservation (hash : Hash) (Hg : HashGood hash)
    (M : List Nat) (hmin : 48 ≤ M.length) (hmax : M.length ≤ 4194368) :
    (∃ J, F4Jumble hash M = .ok J ∧ J.length = M.length)
  ∧ (∃ U, F4JumbleInv hash M = .ok U ∧ U.length = M.length) :=
  ⟨⟨cOf hash M ++ dOf hash M, F4Jumble_eq_ok hash Hg M hmin hmax,
      jumbleOut_length hash Hg M⟩,
    ⟨aIOf hash M ++ bIOf hash M, F4JumbleInv_eq_ok hash Hg M hmin hmax,
      invOut_length hash Hg M⟩⟩

/-- Witness for C4 at a concrete hash and message. -/
theorem claim4_length_preservation_witness :
    ∃ J, F4Jumble zeroHash (List.replicate 48 0) = .ok J
      ∧ J.length = (List.replicate 48 (0 : Nat)).length :=
  (claim4_length_preservation zeroHash zeroHash_good (List.replicate 48 0)
    (by simp) (by simp)).1

/-- Claim C5: the transforms return the invalid-length error iff
`len(M) < 48` or `len(M) > 4194368`; moreover that rejection happens before
any hash invocation: for out-of-range lengths the result is the same
`invalidLength` for EVERY hash function, so no hash output can influence it
and no partial work is observable. -/
theorem claim5_invalid_length (hash : Hash) (Hg : HashGood hash)
    (M : List Nat) :
    (F4Jumble hash M = .invalidLength ↔ (M.length < 48 ∨ 4194368 < M.length))
  ∧ (F4JumbleInv hash M = .invalidLength ↔ (M.length < 48 ∨ 4194368 < M.length))
  ∧ ((M.length < 48 ∨ 4194368 < M.length) →
      ∀ hash2 : Hash, F4Jumble hash2 M = .invalidLength
        ∧ F4JumbleInv hash2 M = .invalidLength) := by
  by_cases hv : M.length < 48 ∨ 4194368 < M.length
  · have hv' : M.length < minLenM ∨ M.length > maxLenM := hv
    have hj : ∀ h2 : Hash, F4Jumble h2 M = .invalidLength := by
      intro h2
      simp only [F4Jumble]
      rw [if_pos hv']
    have hi : ∀ h2 : Hash, F4JumbleInv h2 M = .invalidLength := by
      intro h2
      simp only [F4JumbleInv]
      rw [if_pos hv']
    exact ⟨⟨fun _ => hv, fun _ => hj hash⟩, ⟨fun _ => hv, fun _ => hi hash⟩,
      fun _ h2 => ⟨hj h2, hi h2⟩⟩
  · have hmin : minLenM ≤ M.length := by unfold minLenM; omega
    have hmax : M.length ≤ maxLenM := by unfold maxLenM; omega
    have hJ := F4Jumble_eq_ok hash Hg M hmin hmax
    have hI := F4JumbleInv_eq_ok hash Hg M hmin hmax
    refine ⟨⟨fun h => ?_, fun h => absurd h hv⟩,
      ⟨fun h => ?_, fun h => absurd h hv⟩, fun h _ => absurd h hv⟩
    · rw [hJ] at h
      exact F4Out.noConfusion h
    · rw [hI] at h
      exact F4Out.noConfusion h

/-- Witness for C5: length 47 is rejected, length 48 is accepted. -/
theorem claim5_invalid_length_witness :
    F4Jumble zeroHash (List.replicate 47 0) = .invalidLength
  ∧ ¬(F4Jumble zeroHash (List.replicate 48 0) = .invalidLength) :=
  ⟨(claim5_invalid_length zeroHash zeroHash_good (List.replicate 47 0)).1.mpr
      (Or.inl (by simp)),
    fun h =>
      absurd ((claim5_invalid_length zeroHash zeroHash_good
        (List.replicate 48 0)).1.mp h) (by simp)⟩

/-- Claim C6: for every valid message length the split satisfies
`lenL = min(64, lenM div 2)`, `lenR = lenM - lenL`, `lenL ≤ 64`,
`lenL + lenR = lenM` and `lenR ≥ lenL`.  Both `F4Jumble` and `F4JumbleInv`
compute their split through these very definitions (`lenLOf`, `lenROf`). -/
theorem claim6_split (lenM : Nat) (_hmin : 48 ≤ lenM) (_hmax : lenM ≤ 4194368) :
    lenLOf lenM = min 64 (lenM / 2)
  ∧ lenROf lenM = lenM - lenLOf lenM
  ∧ lenLOf lenM ≤ 64
  ∧ lenLOf lenM + lenROf lenM = lenM
  ∧ lenLOf lenM ≤ lenROf lenM := by
  have h1 : lenLOf lenM = min 64 (lenM / 2) := by
    unfold lenLOf lenH
    split <;> omega
  refine ⟨h1, rfl, by rw [h1]; omega, lenLOf_add_lenROf lenM, ?_⟩
  have h2 := lenLOf_le_half lenM
  unfold lenROf
  omega

/-- Witness for C6 at the boundary length 48. -/
theorem claim6_split_witness : lenLOf 48 + lenROf 48 = 48 :=
  (claim6_split 48 (by norm_num) (by norm_num)).2.2.2.1

/-- Claim C7: `gRound(i, u, outLen)` returns exactly the first `outLen` bytes
of the concatenation, in increasing block order `j = 0 .. ceil(outLen/64)-1`,
of the 64-byte hashes of `u` personalized with `gPers(i, j)`, and its length
is exactly `outLen`, assuming the hash returns digests of the requested
length. -/
theorem claim7_gRound (hash : Hash) (Hg : HashGood hash) (i : Nat)
    (u : List Nat) (outLen : Nat) (_hpos : 1 ≤ outLen) :
    gRound hash i u outLen = gConcatSpec hash i u outLen
  ∧ (gRound hash i u outLen).length = outLen := by
  constructor
  · rw [gRound_eq_take]
    rfl
  · exact gRound_length hash Hg i u outLen

/-- Witness for C7 at a concrete hash, round, input and output length. -/
theorem claim7_gRound_witness :
    gRound zeroHash 0 [1, 2, 3] 100 = gConcatSpec zeroHash 0 [1, 2, 3] 100 :=
  (claim7_gRound zeroHash zeroHash_good 0 [1, 2, 3] 100 (by norm_num)).1

/-- Claim C8: `hPers(i)` is the ASCII bytes of `"UA_F4Jumble_"` followed by
`'H'` (72), the byte `i` and two zero bytes; `gPers(i, j)` is the same prefix
followed by `'G'` (71), the byte `i`, the low byte `j mod 256` and the high
byte `j div 256` (little-endian 16-bit block index), for every round byte
`i < 256` and block index `j ≤ 65535`. -/
theorem claim8_tags (i j : Nat) (hi : i < 256) (hj : j ≤ 65535) :
    hPers i = uaTag ++ [72, i, 0, 0]
  ∧ gPers i j = uaTag ++ [71, i, j % 256, j / 256] := by
  have hua : uaTag = [85, 65, 95, 70, 52, 74, 117, 109, 98, 108, 101, 95] := by
    decide
  have him : i % 256 = i := Nat.mod_eq_of_lt hi
  have hland : (j &&& 0xff) % 256 = j % 256 := by
    have h255 : (0xff : Nat) = 2 ^ 8 - 1 := by norm_num
    rw [h255, Nat.and_pow_two_sub_one_eq_mod]
    exact Nat.mod_eq_of_lt (Nat.mod_lt j (by norm_num))
  have hshift : (j >>> 8) % 256 = j / 256 := by
    rw [Nat.shiftRight_eq_div_pow]
    exact Nat.mod_eq_of_lt (by omega)
  constructor
  · unfold hPers
    rw [hua, him]
    rfl
  · unfold gPers
    rw [hua, him, hland, hshift]
    rfl

/-- Witness for C8 at a concrete round index and block index. -/
theorem claim8_tags_witness :
    hPers 1 = uaTag ++ [72, 1, 0, 0]
  ∧ gPers 1 300 = uaTag ++ [71, 1, 300 % 256, 300 / 256] :=
  claim8_tags 1 300 (by norm_num) (by norm_num)

/-- Claim C9 counterexample: with `x = [0]` and `y = [1, 2]` the operands have
different lengths, yet `xor` succeeds silently (truncating at `len(x)`)
instead of failing fast, so "whenever the two operands have different lengths,
the call fails fast" is false of the code. -/
theorem claim9_counterexample :
    [(0 : Nat)].length ≠ [(1 : Nat), 2].length ∧ xor [0] [1, 2] = some [1] := by
  decide

/-- Claim C9 (amended): `xor(x, y)` returns a sequence of length `len(x)`
whose `i`-th byte is `x[i] XOR y[i]` whenever `len(y) ≥ len(x)` — silently
ignoring any excess of `y` — and panics (fails, via the out-of-range access
`y[len(y)]`) exactly when `len(y) < len(x)`; in no case is a successful result
zero-padded or shorter than `len(x)`. -/
theorem claim9_xor_behaviour (x y : List Nat) :
    (x.length ≤ y.length →
        xor x y = some (List.zipWith Nat.xor x y)
      ∧ (List.zipWith Nat.xor x y).length = x.length)
  ∧ (y.length < x.length → xor x y = none) := by
  refine ⟨fun h => ⟨xor_some x y h, ?_⟩, fun h => xor_none x y h⟩
  rw [List.length_zipWith]
  omega

/-- Witness for C9's amended statement: a success with equal lengths and a
panic with a shorter `y`. -/
theorem claim9_xor_behaviour_witness :
    xor [5, 6] [7, 8] = some (List.zipWith Nat.xor [5, 6] [7, 8])
  ∧ xor [5, 6] [7] = none :=
  ⟨((claim9_xor_behaviour [5, 6] [7, 8]).1 (by norm_num)).1,
    (claim9_xor_behaviour [5, 6] [7]).2 (by norm_num)⟩

/-- Claim C10: on a valid-length message, each of the four `xor` calls inside
`F4Jumble` and each of the four inside `F4JumbleInv` receives operands of
exactly equal length (`lenR` for the G-round combinations, `lenL` for the
H-round combinations), each call succeeds with the pointwise xor of its
operands (no out-of-range access, i.e. no panic), and consequently neither
transform can reach the panic outcome. -/
theorem claim10_xor_callsites (hash : Hash) (Hg : HashGood hash)
    (M : List Nat) (hmin : 48 ≤ M.length) (hmax : M.length ≤ 4194368) :
    ((bOf M).length = lenROf M.length
      ∧ (g0Of hash M).length = lenROf M.length
      ∧ xor (bOf M) (g0Of hash M) = some (xOf hash M))
  ∧ ((aOf M).length = lenLOf M.length
      ∧ (h0Of hash M).length = lenLOf M.length
      ∧ xor (aOf M) (h0Of hash M) = some (yOf hash M))
  ∧ ((xOf hash M).length = lenROf M.length
      ∧ (g1Of hash M).length = lenROf M.length
      ∧ xor (xOf hash M) (g1Of hash M) = some (dOf hash M))
  ∧ ((yOf hash M).length = lenLOf M.length
      ∧ (h1Of hash M).length = lenLOf M.length
      ∧ xor (yOf hash M) (h1Of hash M) = some (cOf hash M))
  ∧ ((cIOf M).length = lenLOf M.length
      ∧ (h1IOf hash M).length = lenLOf M.length
      ∧ xor (cIOf M) (h1IOf hash M) = some (yIOf hash M))
  ∧ ((dIOf M).length = lenROf M.length
      ∧ (g1IOf hash M).length = lenROf M.length
      ∧ xor (dIOf M) (g1IOf hash M) = some (xIOf hash M))
  ∧ ((yIOf hash M).length = lenLOf M.length
      ∧ (h0IOf hash M).length = lenLOf M.length
      ∧ xor (yIOf hash M) (h0IOf hash M) = some (aIOf hash M))
  ∧ ((xIOf hash M).length = lenROf M.length
      ∧ (g0IOf hash M).length = lenROf M.length
      ∧ xor (xIOf hash M) (g0IOf hash M) = some (bIOf hash M))
  ∧ F4Jumble hash M ≠ .panicked
  ∧ F4JumbleInv hash M ≠ .panicked := by
  refine ⟨⟨bOf_length M, g0Of_length hash Hg M, xor_b_g0 hash Hg M⟩,
    ⟨aOf_length M, h0Of_length hash Hg M, xor_a_h0 hash Hg M⟩,
    ⟨xOf_length hash Hg M, g1Of_length hash Hg M, xor_x_g1 hash Hg M⟩,
    ⟨yOf_length hash Hg M, h1Of_length hash Hg M, xor_y_h1 hash Hg M⟩,
    ⟨cIOf_length M, h1IOf_length hash Hg M, xor_c_h1 hash Hg M⟩,
    ⟨dIOf_length M, g1IOf_length hash Hg M, xor_d_g1 hash Hg M⟩,
    ⟨yIOf_length hash Hg M, h0IOf_length hash Hg M, xor_y_h0 hash Hg M⟩,
    ⟨xIOf_length hash Hg M, g0IOf_length hash Hg M, xor_x_g0 hash Hg M⟩,
    fun h => ?_, fun h => ?_⟩
  · rw [F4Jumble_eq_ok hash Hg M hmin hmax] at h
    exact F4Out.noConfusion h
  · rw [F4JumbleInv_eq_ok hash Hg M hmin hmax] at h
    exact F4Out.noConfusion h

/-- Witness for C10: projection at a concrete hash and message. -/
theorem claim10_xor_callsites_witness :
    F4Jumble zeroHash (List.replicate 48 0) ≠ F4Out.panicked :=
  (claim10_xor_callsites zeroHash zeroHash_good (List.replicate 48 0)
    (by simp) (by simp)).2.2.2.2.2.2.2.2.1

end F4
